import Mathlib

set_option linter.dupNamespace false

/-!
Shallow embedding of the `deck` Go package (`card.go`): a playing-card data
model and a pipeline of composable deck transformations.  Machine integers
are modelled as `Nat`/`Int`; the Go `Rank` type is a `uint8`, so every place
the source converts an `int` to `Rank` takes the value modulo 256.
-/

namespace Deck

/-- `Suit` enumerates the four real suits plus the `Joker` sentinel, in the
declaration order of the Go constant block (`Spade, Diamond, Club, Heart,
Joker`, ordinals 0..4). -/
inductive Suit : Type
  | Spade
  | Diamond
  | Club
  | Heart
  | Joker
deriving DecidableEq, Repr

/-- The `uint8` ordinal of a suit, as fixed by the `iota` constant block. -/
def Suit.val : Suit → Nat
  | .Spade => 0
  | .Diamond => 1
  | .Club => 2
  | .Heart => 3
  | .Joker => 4

/-- `var suits = [...]Suit{Spade, Diamond, Club, Heart}` — the four real
suits iterated by `New`. -/
def suits : List Suit := [Suit.Spade, Suit.Diamond, Suit.Club, Suit.Heart]

/-- `minRank = Ace` (ordinal 1; ordinal 0 of the `Rank` block is unused). -/
def minRank : Nat := 1

/-- `maxRank = King` (ordinal 13). -/
def maxRank : Nat := 13

/-- `Card` is the pair of a `Suit` and a `Rank`; the Go `Rank` is a `uint8`
modelled as a `Nat` (values created by the library are in `[0, 256)`). -/
structure Card where
  suit : Suit
  rank : Nat
deriving DecidableEq, Repr

instance : Inhabited Card := ⟨⟨Suit.Spade, 0⟩⟩

/-- The base 52-card sequence generated by `New`'s nested loops: for each
suit of `suits` in order, ranks `minRank..maxRank` ascending
(`List.range' minRank maxRank` is `[1, 2, ..., 13]`). -/
def baseDeck : List Card :=
  suits.flatMap fun suit =>
    (List.range' minRank maxRank).map fun rank => { suit := suit, rank := rank }

/-- `New(opts ...func([]Card) []Card) []Card`: build the base deck, then
fold the supplied transformations over it in order. -/
def New (opts : List (List Card → List Card)) : List Card :=
  opts.foldl (fun cards opt => opt cards) baseDeck

/-- `func absRank(c Card) int { return int(c.Suit)*int(maxRank) + int(c.Rank) }` -/
def absRank (c : Card) : Int :=
  (c.suit.val : Int) * (maxRank : Int) + (c.rank : Int)

/-- `func rankThenSuit(c Card) int { return ((int(c.Rank) - 1) * len(suits)) + int(c.Suit) }` -/
def rankThenSuit (c : Card) : Int :=
  ((c.rank : Int) - 1) * (suits.length : Int) + (c.suit.val : Int)

/-- `BySuitThenByRank(cards)` returns the positional less predicate
`func(i, j int) bool { return absRank(cards[i]) < absRank(cards[j]) }`
(indices produced by the sort are always in range; out-of-range reads are
totalised with a default card). -/
def BySuitThenByRank (cards : List Card) : Nat → Nat → Bool :=
  fun i j => decide (absRank (cards.getD i default) < absRank (cards.getD j default))

/-- `ByRankThenBySuit(cards)` returns the positional less predicate
`func(i, j int) bool { return rankThenSuit(cards[i]) < rankThenSuit(cards[j]) }`. -/
def ByRankThenBySuit (cards : List Card) : Nat → Nat → Bool :=
  fun i j => decide (rankThenSuit (cards.getD i default) < rankThenSuit (cards.getD j default))

/-- Stable insertion of a card into a list, keeping earlier elements first
among `le`-ties; building block of the `sort.Slice` model. -/
def insertSorted (le : Card → Card → Bool) (a : Card) : List Card → List Card
  | [] => [a]
  | b :: bs => if le a b then a :: b :: bs else b :: insertSorted le a bs

/-- Model of `sort.Slice(cards, less(cards))`: the slice is rearranged so
that the comparator's less order holds along it.  The positional comparator
is interpreted on the two cards being compared (`less [b, a] 0 1` asks
whether `b` sorts strictly before `a`), and the rearrangement is realised
by a deterministic insertion sort on the non-strict order
`le a b := ¬(b < a)`. -/
def sortSlice (less : List Card → Nat → Nat → Bool) (cards : List Card) : List Card :=
  cards.foldr (insertSorted fun a b => ! less [b, a] 0 1) []

/-- `func DefaultSort(cards []Card) []Card { sort.Slice(cards, BySuitThenByRank(cards)); return cards }` -/
def DefaultSort (cards : List Card) : List Card :=
  sortSlice BySuitThenByRank cards

/-- `func Sort(less ...) func([]Card) []Card` — the generic sort factory
(named `Sort'` because `Sort` is a Lean keyword):
`return func(cards []Card) []Card { sort.Slice(cards, less(cards)); return cards }`. -/
def Sort' (less : List Card → Nat → Nat → Bool) : List Card → List Card :=
  fun cards => sortSlice less cards

/-- The swap closure passed to `rand.Shuffle`:
`func(i, j int) { cards[i], cards[j] = cards[j], cards[i] }` (the shuffle
only ever calls it with in-range indices). -/
def swapAt (cards : List Card) (i j : Nat) : List Card :=
  if h : i < cards.length ∧ j < cards.length then
    (cards.set i (cards.get ⟨j, h.2⟩)).set j (cards.get ⟨i, h.1⟩)
  else cards

/-- The Fisher–Yates loop of `rand.Shuffle`: for `i` from `n-1` down to `1`,
swap position `i` with a random position `j ∈ [0, i]`.  The randomness
source is modelled as an oracle `choice`; the draw for index `i` is
`choice i % (i + 1)`, covering every possible outcome as `choice` ranges
over all functions. -/
def fisherYates (choice : Nat → Nat) : Nat → List Card → List Card
  | 0, cards => cards
  | i + 1, cards => fisherYates choice i (swapAt cards (i + 1) (choice (i + 1) % (i + 2)))

/-- `func Shuffle(cards []Card) []Card`: seed a source from the wall clock
(here: the oracle `choice` stands for the seeded stream) and apply
`r.Shuffle(len(cards), swap)`. -/
def Shuffle (choice : Nat → Nat) (cards : List Card) : List Card :=
  fisherYates choice (cards.length - 1) cards

/-- `func Jokers(n int) func([]Card) []Card`: append one card
`Card{Suit: Joker, Rank: Rank(i)}` for each `i` in `0 ≤ i < n` (no
iterations when `n ≤ 0`); `Rank(i)` truncates the Go `int` to `uint8`,
hence `i % 256`. -/
def Jokers (n : Int) : List Card → List Card :=
  fun cards =>
    (List.range n.toNat).foldl
      (fun cs i => cs ++ [{ suit := Suit.Joker, rank := i % 256 }]) cards

/-- `func Filter(f func(card Card) bool) func([]Card) []Card`: start from an
empty slice and append every card for which `f` is false. -/
def Filter (f : Card → Bool) : List Card → List Card :=
  fun cards => cards.foldl (fun ret card => if ! f card then ret ++ [card] else ret) []

/-- `func Deck(n int) func([]Card) []Card`: append `n` copies of the input
to an empty slice (no iterations when `n ≤ 0`). -/
def Deck (n : Int) : List Card → List Card :=
  fun cards => (List.range n.toNat).foldl (fun ret _ => ret ++ cards) []

/-! ### Helper lemmas (shared) -/

/-- Folding "append one element per index" over a list of indices appends
the mapped indices. -/
theorem foldl_append_singleton (f : Nat → Card) :
    ∀ (ks : List Nat) (acc : List Card),
      ks.foldl (fun cs i => cs ++ [f i]) acc = acc ++ ks.map f
  | [], acc => by simp
  | k :: ks, acc => by simp [foldl_append_singleton f ks]

/-- `Jokers n` appends the joker cards with ranks `i % 256`, `i < n`. -/
theorem Jokers_eq (n : Int) (cards : List Card) :
    Jokers n cards
      = cards ++ (List.range n.toNat).map fun i => Card.mk Suit.Joker (i % 256) := by
  simpa [Jokers] using foldl_append_singleton (fun i => Card.mk Suit.Joker (i % 256))
    (List.range n.toNat) cards

/-- The accumulator form of `Filter`'s loop is `List.filter` on the negated
predicate. -/
theorem filter_foldl (f : Card → Bool) :
    ∀ (l acc : List Card),
      l.foldl (fun ret card => if ! f card then ret ++ [card] else ret) acc
        = acc ++ l.filter fun c => ! f c
  | [], acc => by simp
  | c :: l, acc => by
    rw [List.foldl_cons, filter_foldl f l]
    by_cases h : f c <;> simp [h, List.filter_cons]

/-- `Filter f` is `List.filter` on the negation of `f`. -/
theorem Filter_eq (f : Card → Bool) (cards : List Card) :
    Filter f cards = cards.filter fun c => ! f c := by
  simpa [Filter] using filter_foldl f cards []

/-- The accumulator form of `Deck`'s loop concatenates `k` copies. -/
theorem deck_foldl (cards : List Card) :
    ∀ (k : Nat) (acc : List Card),
      (List.range k).foldl (fun ret _ => ret ++ cards) acc
        = acc ++ (List.replicate k cards).flatten
  | 0, acc => by simp
  | k + 1, acc => by
    simp [List.range_succ, deck_foldl cards k, List.replicate_succ']

/-- `Deck n` is the flattening of `n` copies of the input. -/
theorem Deck_eq (n : Int) (cards : List Card) :
    Deck n cards = (List.replicate n.toNat cards).flatten := by
  simpa [Deck] using deck_foldl cards n.toNat []

/-- Length of the concatenation of `k` copies. -/
theorem flatten_replicate_length : ∀ (k : Nat) (l : List Card),
    ((List.replicate k l).flatten).length = k * l.length
  | 0, l => by simp
  | k + 1, l => by
    simp [List.replicate_succ, flatten_replicate_length k l, Nat.succ_mul, Nat.add_comm]

/-- Occurrence count in the concatenation of `k` copies. -/
theorem flatten_replicate_count : ∀ (k : Nat) (l : List Card) (c : Card),
    ((List.replicate k l).flatten).count c = k * l.count c
  | 0, l, c => by simp
  | k + 1, l, c => by
    simp [List.replicate_succ, flatten_replicate_count k l c, Nat.succ_mul, Nat.add_comm]

/-! ### Sorting lemmas -/

/-- Membership in `insertSorted`. -/
theorem mem_insertSorted (le : Card → Card → Bool) (a x : Card) :
    ∀ l : List Card, x ∈ insertSorted le a l ↔ x = a ∨ x ∈ l
  | [] => by simp [insertSorted]
  | b :: bs => by
    by_cases h : le a b
    · simp [insertSorted, h]
    · simp [insertSorted, h, mem_insertSorted le a x bs]
      tauto

/-- `insertSorted` preserves `le`-sortedness when `le` is total and
transitive. -/
theorem insertSorted_pairwise {le : Card → Card → Bool}
    (htot : ∀ a b, le a b = true ∨ le b a = true)
    (htrans : ∀ a b c, le a b = true → le b c = true → le a c = true)
    (a : Card) :
    ∀ l : List Card, l.Pairwise (fun x y => le x y = true) →
      (insertSorted le a l).Pairwise (fun x y => le x y = true)
  | [], _ => by simp [insertSorted]
  | b :: bs, hl => by
    have hhead := (List.pairwise_cons.mp hl).1
    have htail := (List.pairwise_cons.mp hl).2
    by_cases h : le a b
    · simp only [insertSorted, h, if_true]
      refine List.Pairwise.cons ?_ hl
      intro x hx
      rcases List.mem_cons.mp hx with rfl | hx
      · exact h
      · exact htrans a b x h (hhead x hx)
    · have hba : le b a = true := (htot a b).resolve_left h
      simp only [insertSorted, h, if_false]
      refine List.Pairwise.cons ?_ (insertSorted_pairwise htot htrans a bs htail)
      intro x hx
      rcases (mem_insertSorted le a x bs).mp hx with rfl | hx
      · exact hba
      · exact hhead x hx

/-- The insertion sort underlying `sortSlice` produces an `le`-sorted
list. -/
theorem foldr_insertSorted_pairwise {le : Card → Card → Bool}
    (htot : ∀ a b, le a b = true ∨ le b a = true)
    (htrans : ∀ a b c, le a b = true → le b c = true → le a c = true) :
    ∀ cards : List Card,
      (cards.foldr (insertSorted le) []).Pairwise (fun x y => le x y = true)
  | [] => by simp
  | c :: cs =>
    insertSorted_pairwise htot htrans c _ (foldr_insertSorted_pairwise htot htrans cs)

/-- Sorting an already `le`-sorted list returns it unchanged. -/
theorem foldr_insertSorted_of_pairwise {le : Card → Card → Bool} :
    ∀ l : List Card, l.Pairwise (fun x y => le x y = true) →
      l.foldr (insertSorted le) [] = l
  | [], _ => rfl
  | a :: l, h => by
    have ih := foldr_insertSorted_of_pairwise l (List.pairwise_cons.mp h).2
    rw [List.foldr_cons, ih]
    cases l with
    | nil => rfl
    | cons b bs =>
      have hab : le a b = true :=
        (List.pairwise_cons.mp h).1 b (List.mem_cons_self b bs)
      simp [insertSorted, hab]

/-- `insertSorted le a l` is a permutation of `a :: l`. -/
theorem insertSorted_perm (le : Card → Card → Bool) (a : Card) :
    ∀ l : List Card, (insertSorted le a l).Perm (a :: l)
  | [] => List.Perm.refl _
  | b :: bs => by
    by_cases h : le a b
    · simp only [insertSorted, h, if_true]
      exact List.Perm.refl _
    · simp only [insertSorted, h, if_false]
      exact ((insertSorted_perm le a bs).cons b).trans (List.Perm.swap a b bs)

/-- The insertion sort underlying `sortSlice` permutes its input. -/
theorem foldr_insertSorted_perm (le : Card → Card → Bool) :
    ∀ l : List Card, (l.foldr (insertSorted le) []).Perm l
  | [] => List.Perm.refl _
  | c :: cs => (insertSorted_perm le c _).trans ((foldr_insertSorted_perm le cs).cons c)

/-- The non-strict order of the `DefaultSort` comparator is `absRank`-`≤`. -/
theorem bySuit_le_iff (a b : Card) :
    (! BySuitThenByRank [b, a] 0 1) = true ↔ absRank a ≤ absRank b := by
  simp [BySuitThenByRank, List.getD]

/-- Totality of the `DefaultSort` comparator's non-strict order. -/
theorem bySuit_total (a b : Card) :
    (! BySuitThenByRank [b, a] 0 1) = true ∨ (! BySuitThenByRank [a, b] 0 1) = true := by
  rw [bySuit_le_iff, bySuit_le_iff]
  exact le_total _ _

/-- Transitivity of the `DefaultSort` comparator's non-strict order. -/
theorem bySuit_trans (a b c : Card) :
    (! BySuitThenByRank [b, a] 0 1) = true → (! BySuitThenByRank [c, b] 0 1) = true →
      (! BySuitThenByRank [c, a] 0 1) = true := by
  rw [bySuit_le_iff, bySuit_le_iff, bySuit_le_iff]
  exact le_trans

/-! ### Shuffle lemmas -/

/-- Moving `x` into position `k` of `xs` while extracting the old `xs[k]`
to the front is a permutation of `x :: xs`. -/
theorem cons_set_perm :
    ∀ (xs : List Card) (k : Nat) (h : k < xs.length) (x : Card),
      (x :: xs).Perm (xs.get ⟨k, h⟩ :: xs.set k x)
  | [], k, h, x => absurd h (by simp)
  | y :: ys, 0, h, x => List.Perm.swap y x ys
  | y :: ys, k + 1, h, x => by
    have hk : k < ys.length := by simpa using Nat.lt_of_succ_lt_succ h
    show (x :: y :: ys).Perm (ys.get ⟨k, hk⟩ :: y :: ys.set k x)
    exact (List.Perm.swap y x ys).trans
      (((cons_set_perm ys k hk x).cons y).trans
        (List.Perm.swap (ys.get ⟨k, hk⟩) y (ys.set k x)))

/-- The double `set` realising a swap is a permutation. -/
theorem set_set_swap_perm :
    ∀ (l : List Card) (i j : Nat) (hi : i < l.length) (hj : j < l.length),
      ((l.set i (l.get ⟨j, hj⟩)).set j (l.get ⟨i, hi⟩)).Perm l
  | [], i, j, hi, hj => absurd hi (by simp)
  | x :: xs, 0, 0, hi, hj => List.Perm.refl _
  | x :: xs, 0, j + 1, hi, hj => by
    have hj' : j < xs.length := by simpa using Nat.lt_of_succ_lt_succ hj
    exact (cons_set_perm xs j hj' x).symm
  | x :: xs, i + 1, 0, hi, hj => by
    have hi' : i < xs.length := by simpa using Nat.lt_of_succ_lt_succ hi
    exact (cons_set_perm xs i hi' x).symm
  | x :: xs, i + 1, j + 1, hi, hj => by
    have hi' : i < xs.length := by simpa using Nat.lt_of_succ_lt_succ hi
    have hj' : j < xs.length := by simpa using Nat.lt_of_succ_lt_succ hj
    exact (set_set_swap_perm xs i j hi' hj').cons x

/-- Each swap of the shuffle permutes the sequence. -/
theorem swapAt_perm (cards : List Card) (i j : Nat) :
    (swapAt cards i j).Perm cards := by
  unfold swapAt
  split
  · next h => exact set_set_swap_perm cards i j h.1 h.2
  · exact List.Perm.refl _

/-- The whole Fisher–Yates loop permutes the sequence, for every outcome of
the choice oracle. -/
theorem fisherYates_perm (choice : Nat → Nat) :
    ∀ (k : Nat) (cards : List Card), (fisherYates choice k cards).Perm cards
  | 0, _ => List.Perm.refl _
  | k + 1, cards =>
    (fisherYates_perm choice k _).trans
      (swapAt_perm cards (k + 1) (choice (k + 1) % (k + 2)))

/-! ### Claim theorems -/

/-- Claim C1: `New` with no transformations returns exactly the canonical
52-card sequence (nested iteration over the four real suits in order
`Spade, Diamond, Club, Heart`, ranks Ace..King ascending within each suit),
with no duplicates, no Joker-suited cards, one card per (real suit, rank)
pair, 13 cards per suit and 4 per rank; and `New` applies the supplied
transformations to that base sequence strictly in order, each consuming the
previous step's output. -/
theorem c1_new_base_and_pipeline :
    New [] = baseDeck ∧
    (New []).length = 52 ∧
    (New []).Nodup ∧
    ((New []).all fun c => ! (c.suit == Suit.Joker)) = true ∧
    (suits.all fun s =>
      (List.range' minRank maxRank).all fun r => (New []).count (Card.mk s r) == 1) = true ∧
    (suits.all fun s => ((New []).countP fun c => c.suit == s) == 13) = true ∧
    ((List.range' minRank maxRank).all fun r =>
      ((New []).countP fun c => c.rank == r) == 4) = true ∧
    ∀ (ts : List (List Card → List Card)) (t : List Card → List Card),
      New (ts ++ [t]) = t (New ts) := by
  refine ⟨rfl, by decide, by decide, by decide, by decide, by decide, by decide, ?_⟩
  intro ts t
  simp [New, List.foldl_append]

/-- Claim C2: on non-joker cards with ranks Ace..King, the suit-major key
`absRank c = ordinal(suit) * maxRank + ordinal(rank)` is a total-order key
for suit-then-rank ordering: `absRank c1 < absRank c2` iff `c1`'s suit
ordinal is smaller, or the suits are equal and `c1`'s rank is smaller
(so all Spades sort before all Diamonds before all Clubs before all
Hearts, ranks ascending within a suit). -/
theorem c2_absRank_suit_major :
    ∀ c1 c2 : Card, c1.suit ≠ Suit.Joker → c2.suit ≠ Suit.Joker →
      minRank ≤ c1.rank → c1.rank ≤ maxRank → minRank ≤ c2.rank → c2.rank ≤ maxRank →
      (absRank c1 < absRank c2 ↔
        (c1.suit.val < c2.suit.val ∨
          (c1.suit.val = c2.suit.val ∧ c1.rank < c2.rank))) := by
  intro c1 c2 h1 h2 ha hb hc hd
  obtain ⟨s1, r1⟩ := c1
  obtain ⟨s2, r2⟩ := c2
  simp only [minRank, maxRank] at ha hb hc hd
  simp only [absRank, maxRank]
  cases s1 <;> cases s2 <;> simp_all [Suit.val] <;> omega

/-- Claim C2 witness: the King of Spades sorts before the Ace of
Diamonds under the suit-major key. -/
theorem c2_absRank_suit_major_witness :
    absRank (Card.mk Suit.Spade 13) < absRank (Card.mk Suit.Diamond 1) ↔
      ((Card.mk Suit.Spade 13).suit.val < (Card.mk Suit.Diamond 1).suit.val ∨
        ((Card.mk Suit.Spade 13).suit.val = (Card.mk Suit.Diamond 1).suit.val ∧
          (Card.mk Suit.Spade 13).rank < (Card.mk Suit.Diamond 1).rank)) :=
  c2_absRank_suit_major _ _ (by decide) (by decide) (by decide) (by decide)
    (by decide) (by decide)

/-- Claim C3: `DefaultSort` is the transformation `Sort` applied with
`BySuitThenByRank`: both sort the slice with `sort.Slice(cards,
BySuitThenByRank(cards))`, so they agree on every input sequence. -/
theorem c3_defaultSort_eq_sort :
    ∀ cards : List Card, DefaultSort cards = Sort' BySuitThenByRank cards :=
  fun _ => rfl

/-- Claim C5: on non-joker cards, the rank-major key
`rankThenSuit c = (ordinal(rank) - 1) * numberOfSuits + ordinal(suit)`
orders by rank first and suit second; `Sort(ByRankThenBySuit)` applied to
`New()` yields the deck grouped rank by rank — all four Aces contiguously
first, then all four Twos, up through the Kings. -/
theorem c5_rankThenSuit_rank_major :
    (∀ c1 c2 : Card, c1.suit ≠ Suit.Joker → c2.suit ≠ Suit.Joker →
      minRank ≤ c1.rank → c1.rank ≤ maxRank → minRank ≤ c2.rank → c2.rank ≤ maxRank →
      (rankThenSuit c1 < rankThenSuit c2 ↔
        (c1.rank < c2.rank ∨ (c1.rank = c2.rank ∧ c1.suit.val < c2.suit.val)))) ∧
    Sort' ByRankThenBySuit (New [])
      = (List.range' minRank maxRank).flatMap fun r => suits.map fun s => Card.mk s r := by
  constructor
  · intro c1 c2 h1 h2 ha hb hc hd
    obtain ⟨s1, r1⟩ := c1
    obtain ⟨s2, r2⟩ := c2
    simp only [minRank, maxRank] at ha hb hc hd
    simp only [rankThenSuit, suits, List.length_cons, List.length_nil]
    cases s1 <;> cases s2 <;> simp_all [Suit.val] <;> omega
  · decide

/-- Claim C5 witness: the Ace of Hearts sorts before the Two of Spades
under the rank-major key. -/
theorem c5_rankThenSuit_rank_major_witness :
    rankThenSuit (Card.mk Suit.Heart 1) < rankThenSuit (Card.mk Suit.Spade 2) ↔
      ((Card.mk Suit.Heart 1).rank < (Card.mk Suit.Spade 2).rank ∨
        ((Card.mk Suit.Heart 1).rank = (Card.mk Suit.Spade 2).rank ∧
          (Card.mk Suit.Heart 1).suit.val < (Card.mk Suit.Spade 2).suit.val)) :=
  c5_rankThenSuit_rank_major.1 _ _ (by decide) (by decide) (by decide) (by decide)
    (by decide) (by decide)

set_option maxRecDepth 40000 in
/-- Claim C6 counterexample: at `n = 257` the appended joker cards do not
carry distinct rank values — the Go `Rank` is a `uint8`, so `Rank(256)`
wraps to `0`, duplicating the rank of the first joker. -/
theorem c6_jokers_counterexample :
    ¬ (((Jokers 257 []).map fun c => c.rank).Nodup) := by decide

/-- Claim C6 (amended): for every `0 ≤ n ≤ 256` and every input sequence,
`Jokers n` returns the input unchanged followed by exactly `n` appended
Joker-suited cards carrying distinct rank values covering `[0, n)` (for
`n > 256` the `uint8` rank wraps modulo 256 and values repeat); in
particular `Jokers 3` after `New()` yields length 55 with joker ranks
`{0, 1, 2}`, and `Jokers 0` is a no-op. -/
theorem c6_jokers_amended :
    ∀ n : Int, 0 ≤ n → n ≤ 256 → ∀ cards : List Card,
      Jokers n cards = cards ++ ((List.range n.toNat).map fun i => Card.mk Suit.Joker i) ∧
      (Jokers n cards).take cards.length = cards ∧
      ((Jokers n cards).drop cards.length).map (fun c => c.rank) = List.range n.toNat ∧
      (Jokers n cards).length = cards.length + n.toNat ∧
      Jokers 0 cards = cards ∧
      (Jokers 3 (New [])).length = 55 ∧
      ((Jokers 3 (New [])).filter fun c => c.suit == Suit.Joker).map (fun c => c.rank)
        = [0, 1, 2] := by
  intro n h0 h256 cards
  have hlt : ∀ i ∈ List.range n.toNat, i < 256 := by
    intro i hi
    have := List.mem_range.mp hi
    omega
  have hmap : ((List.range n.toNat).map fun i => Card.mk Suit.Joker (i % 256))
      = (List.range n.toNat).map fun i => Card.mk Suit.Joker i := by
    apply List.map_congr_left
    intro i hi
    rw [Nat.mod_eq_of_lt (hlt i hi)]
  have heq : Jokers n cards
      = cards ++ ((List.range n.toNat).map fun i => Card.mk Suit.Joker i) := by
    rw [Jokers_eq, hmap]
  refine ⟨heq, ?_, ?_, ?_, ?_, by decide, by decide⟩
  · rw [heq, List.take_left]
  · rw [heq, List.drop_left, List.map_map]
    exact List.map_id _
  · rw [heq]
    simp
  · rw [Jokers_eq]
    simp

/-- Claim C6 witness: the amended statement instantiated at `n = 3`. -/
theorem c6_jokers_amended_witness :
    (0 : Int) ≤ 3 ∧ (3 : Int) ≤ 256 ∧
      ((Jokers 3 (New [])).drop (New []).length).map (fun c => c.rank)
        = List.range (3 : Int).toNat :=
  ⟨by decide, by decide, (c6_jokers_amended 3 (by decide) (by decide) (New [])).2.2.1⟩

/-- Claim C7: `Filter f` keeps exactly the cards on which `f` is false, in
their original relative order (it is `List.filter` of the negated
predicate, hence a sublist of the input); an always-true predicate yields
`[]`, an always-false predicate yields the input unchanged, and filtering
out Hearts from `New()` yields 39 cards with no Heart among them. -/
theorem c7_filter :
    (∀ (f : Card → Bool) (cards : List Card), Filter f cards = cards.filter fun c => ! f c) ∧
    (∀ (f : Card → Bool) (cards : List Card), (Filter f cards).Sublist cards) ∧
    (∀ cards : List Card, Filter (fun _ => true) cards = []) ∧
    (∀ cards : List Card, Filter (fun _ => false) cards = cards) ∧
    (Filter (fun c => c.suit == Suit.Heart) (New [])).length = 39 ∧
    ((Filter (fun c => c.suit == Suit.Heart) (New [])).all
      fun c => ! (c.suit == Suit.Heart)) = true := by
  refine ⟨Filter_eq, ?_, ?_, ?_, by decide, by decide⟩
  · intro f cards
    rw [Filter_eq]
    exact List.filter_sublist _
  · intro cards
    simp [Filter_eq]
  · intro cards
    simp [Filter_eq]

/-- Claim C8: for every `n ≥ 0`, `Deck n` concatenates `n` copies of its
input in order: the length is `n` times the input length, every card's
multiplicity is multiplied by `n`, and `Deck 0` yields the empty
sequence. -/
theorem c8_deck :
    ∀ n : Int, 0 ≤ n → ∀ cards : List Card,
      Deck n cards = (List.replicate n.toNat cards).flatten ∧
      (Deck n cards).length = n.toNat * cards.length ∧
      (∀ c : Card, (Deck n cards).count c = n.toNat * cards.count c) ∧
      Deck 0 cards = [] := by
  intro n _ cards
  refine ⟨Deck_eq n cards, ?_, ?_, ?_⟩
  · rw [Deck_eq]
    exact flatten_replicate_length _ _
  · intro c
    rw [Deck_eq]
    exact flatten_replicate_count _ _ _
  · rw [Deck_eq]
    simp

/-- Claim C8 witness: `Deck 3` of the base deck has length `3 * 52`. -/
theorem c8_deck_witness :
    (0 : Int) ≤ 3 ∧ (Deck 3 (New [])).length = (3 : Int).toNat * (New []).length :=
  ⟨by decide, (c8_deck 3 (by decide) (New [])).2.1⟩

/-- Claim C10: for every `n < 0`, the replication loops do not execute:
`Jokers n` returns its input unchanged and `Deck n` returns the empty
sequence. -/
theorem c10_negative_counts :
    ∀ n : Int, n < 0 → ∀ cards : List Card,
      Jokers n cards = cards ∧ Deck n cards = [] := by
  intro n h cards
  have h0 : n.toNat = 0 := by omega
  constructor
  · rw [Jokers_eq, h0]
    simp
  · rw [Deck_eq, h0]
    simp

/-- Claim C9: for every outcome of the randomness source (modelled by the
choice oracle) and every input sequence, `Shuffle` returns a permutation of
its input: same length and same multiset of card values. -/
theorem c9_shuffle_permutation :
    ∀ (choice : Nat → Nat) (cards : List Card),
      (Shuffle choice cards).Perm cards ∧
      (Shuffle choice cards).length = cards.length ∧
      (Shuffle choice cards : Multiset Card) = (cards : Multiset Card) := by
  intro choice cards
  have h : (Shuffle choice cards).Perm cards := fisherYates_perm choice _ cards
  exact ⟨h, h.length_eq, Multiset.coe_eq_coe.mpr h⟩

/-- Claim C10 witness: instantiated at `n = -1`. -/
theorem c10_negative_counts_witness :
    (-1 : Int) < 0 ∧ Jokers (-1) [] = ([] : List Card) :=
  ⟨by decide, (c10_negative_counts (-1) (by decide) []).1⟩

end Deck
